import Mathlib

/-!
# Verification of the Monopoly LLM negotiation subsystem

A shallow embedding, in Lean 4, of the LLM-related core of the repository:

* `monopoly/llm/action_parser.py`  — keyword/pattern decoders of agent text
* `monopoly/llm/llm_interface.py`  — retrying transports (Gemini and Llama)
* `monopoly/llm/llm_player.py`     — negotiation loop, trade executor and
  the context builder

Python strings are modelled as `List Char`; `str.strip` and `str.upper`
are modelled for the ASCII range (all protocol tokens are ASCII), with
`Char.isWhitespace` standing for the whitespace class and `Char.toUpper`
for per-character uppercasing.  Substring containment (Python `in`) is
`List.IsInfix`, `str.startswith` is `List.IsPrefix`, and slicing `[:n]`
is `List.take`.  Mutable game state is passed explicitly; out-of-scope
collaborators of the rules engine are modelled from their boundary in the
specification.
-/

/-- Python whitespace test (ASCII fragment), as used by `str.strip()`. -/
def wsC (c : Char) : Bool := c.isWhitespace

/-- Python `str.strip()`: drop whitespace from both ends. -/
def pyStrip (l : List Char) : List Char := List.rdropWhile wsC (l.dropWhile wsC)

/-- Python `str.upper()` (ASCII fragment): uppercase each character. -/
def pyUpper (l : List Char) : List Char := l.map Char.toUpper

/-- The composite `text.strip().upper()` that every decoder applies first. -/
def pyNorm (l : List Char) : List Char := pyUpper (pyStrip l)

/-- The token `DON'T BUY` (written with an explicit code 39 character). -/
def dontBuyTok : List Char := ['D', 'O', 'N', Char.ofNat 39, 'T', ' ', 'B', 'U', 'Y']

/-- `ActionParser.parse_buy_decision` from `monopoly/llm/action_parser.py`:
uppercase the stripped response; answer `true` on an un-negated `BUY`,
`false` on `PASS`/`DECLINE`/a leading `NO` in the first ten characters,
and `false` by default. -/
def parse_buy_decision (s : List Char) : Bool :=
  let u := pyNorm s
  if "BUY".data <:+: u ∧ ¬ (dontBuyTok <:+: u) ∧ ¬ ("NOT BUY".data <:+: u) then
    true
  else if "PASS".data <:+: u ∨ "DECLINE".data <:+: u ∨ "NO".data <:+: u.take 10 then
    false
  else
    false

/-! ## Character-level facts about `strip`/`upper` -/

theorem toNat_ofNat_valid {n : Nat} (h : n < 55296) : (Char.ofNat n).toNat = n := by
  unfold Char.ofNat
  rw [dif_pos (Or.inl h)]
  simp [Char.ofNatAux, Char.toNat, UInt32.toNat]

theorem not_ws_of_33_le {d : Char} (h : 33 ≤ d.toNat) : d.isWhitespace = false := by
  unfold Char.isWhitespace
  have e1 : decide (d = ' ') = false := by
    apply decide_eq_false; intro he; subst he; exact absurd h (by decide)
  have e2 : decide (d = '\t') = false := by
    apply decide_eq_false; intro he; subst he; exact absurd h (by decide)
  have e3 : decide (d = '\x0d') = false := by
    apply decide_eq_false; intro he; subst he; exact absurd h (by decide)
  have e4 : decide (d = '\n') = false := by
    apply decide_eq_false; intro he; subst he; exact absurd h (by decide)
  rw [e1, e2, e3, e4]
  rfl

/-- Uppercasing does not change whether a character is whitespace. -/
theorem wsC_toUpper (c : Char) : wsC (Char.toUpper c) = wsC c := by
  unfold wsC Char.toUpper
  by_cases h : c.toNat ≥ 97 ∧ c.toNat ≤ 122
  · rw [if_pos h]
    have h1 : (Char.ofNat (c.toNat - 32)).toNat = c.toNat - 32 := toNat_ofNat_valid (by omega)
    rw [not_ws_of_33_le (by omega), not_ws_of_33_le (by omega)]
  · rw [if_neg h]

/-! ## Substring containment survives stripping

A token whose first and last characters are not whitespace occurs in a
string iff it occurs in the stripped string, and an occurrence inside the
first `n` characters stays inside the first `n` characters. -/

theorem infix_dropWhile_of_head {p : Char → Bool} {s l : List Char} {c : Char}
    (hh : s.head? = some c) (hc : p c = false) (h : s <:+: l) :
    s <:+: l.dropWhile p := by
  induction l with
  | nil =>
      rw [List.infix_nil] at h
      subst h; simp at hh
  | cons x t ih =>
      by_cases hp : p x
      · rw [List.dropWhile_cons, if_pos hp]
        rcases List.infix_cons_iff.mp h with hpre | hinf
        · cases s with
          | nil => simp at hh
          | cons a s2 =>
              have hax : a = x := (List.cons_prefix_cons.mp hpre).1
              simp only [List.head?_cons, Option.some.injEq] at hh
              rw [hh] at hax
              rw [hax] at hc
              rw [hp] at hc
              exact absurd hc (by simp)
        · exact ih hinf
      · rw [List.dropWhile_cons, if_neg hp]
        exact h

theorem infix_take_dropWhile {p : Char → Bool} {s l : List Char} {c : Char} {n : Nat}
    (hh : s.head? = some c) (hc : p c = false) (h : s <:+: l.take n) :
    s <:+: (l.dropWhile p).take n := by
  induction l generalizing n with
  | nil =>
      simp only [List.take_nil, List.infix_nil] at h
      subst h; simp at hh
  | cons x t ih =>
      cases n with
      | zero =>
          simp only [List.take_zero, List.infix_nil] at h
          subst h; simp at hh
      | succ m =>
          rw [List.take_succ_cons] at h
          by_cases hp : p x
          · rw [List.dropWhile_cons, if_pos hp]
            rcases List.infix_cons_iff.mp h with hpre | hinf
            · cases s with
              | nil => simp at hh
              | cons a s2 =>
                  have hax : a = x := (List.cons_prefix_cons.mp hpre).1
                  simp only [List.head?_cons, Option.some.injEq] at hh
                  rw [hh] at hax
                  rw [hax] at hc
                  rw [hp] at hc
                  exact absurd hc (by simp)
            · exact (ih hinf).trans ( List.take_prefix_take_left _ (Nat.le_succ m)).isInfix
          · rw [List.dropWhile_cons, if_neg hp, List.take_succ_cons]
            exact h

theorem infix_rdropWhile_of_getLast {p : Char → Bool} {s l : List Char} {c : Char}
    (hl : s.getLast? = some c) (hc : p c = false) (h : s <:+: l) :
    s <:+: List.rdropWhile p l := by
  have h1 : s.reverse <:+: l.reverse := List.reverse_infix.mpr h
  have h2 : s.reverse.head? = some c := by rw [List.head?_reverse]; exact hl
  have h3 : s.reverse <:+: l.reverse.dropWhile p := infix_dropWhile_of_head h2 hc h1
  have h4 : s.reverse <:+: (List.rdropWhile p l).reverse := by
    show s.reverse <:+: (List.dropWhile p l.reverse).reverse.reverse
    rw [List.reverse_reverse]
    exact h3
  exact List.reverse_infix.mp h4

theorem rdropWhile_append_rtakeWhile (p : Char → Bool) (l : List Char) :
    List.rdropWhile p l ++ List.rtakeWhile p l = l := by
  show (List.dropWhile p l.reverse).reverse ++ (List.takeWhile p l.reverse).reverse = l
  rw [← List.reverse_append, List.takeWhile_append_dropWhile, List.reverse_reverse]

theorem take_of_prefix_le {x y : List Char} {n : Nat}
    (h : x <+: y) (hn : x.length ≤ n) : x <+: y.take n := by
  have h1 : x = List.take x.length (y.take n) := by
    rw [List.take_take, Nat.min_eq_left hn, ← List.prefix_iff_eq_take.mp h]
  rw [h1]
  exact List.take_prefix _ _

theorem infix_take_rdropWhile {p : Char → Bool} {s l : List Char} {c : Char} {n : Nat}
    (hl : s.getLast? = some c) (hc : p c = false) (h : s <:+: l.take n) :
    s <:+: (List.rdropWhile p l).take n := by
  obtain ⟨a, b, hab⟩ := h
  have hpre1 : a ++ s <+: l.take n := ⟨b, by rw [← hab, List.append_assoc]⟩
  have hlen1 : (a ++ s).length ≤ n := by
    have := hpre1.length_le
    rw [List.length_take] at this
    omega
  have hpre2 : a ++ s <+: l := hpre1.trans ( List.take_prefix n l)
  by_cases hle : (a ++ s).length ≤ (List.rdropWhile p l).length
  · have hpre3 : a ++ s <+: List.rdropWhile p l :=
      List.prefix_of_prefix_length_le hpre2 ( List.rdropWhile_prefix p l) hle
    have hpre4 : a ++ s <+: (List.rdropWhile p l).take n := take_of_prefix_le hpre3 hlen1
    have hs : s <:+: a ++ s := ⟨a, [], by simp⟩
    exact hs.trans hpre4.isInfix
  · exfalso
    have h5 : List.rdropWhile p l <+: a ++ s :=
      List.prefix_of_prefix_length_le ( List.rdropWhile_prefix p l) hpre2 (by omega)
    obtain ⟨e, he⟩ := h5
    have hene : e ≠ [] := by
      intro h0
      rw [h0, List.append_nil] at he
      rw [he] at hle
      exact hle le_rfl
    have hsne : s ≠ [] := by
      intro h0
      rw [h0] at hl
      simp at hl
    have hg1 : (a ++ s).getLast? = some c := by
      rw [List.getLast?_append, hl]
      rfl
    have hg2 : e.getLast? = some c := by
      rw [← he, List.getLast?_append] at hg1
      cases hge : e.getLast? with
      | none => exact absurd (List.getLast?_eq_none_iff.mp hge) hene
      | some d =>
          rw [hge] at hg1
          have hdd : Option.or (some d) (List.rdropWhile p l).getLast? = some d := rfl
          rw [hdd] at hg1
          exact hg1
    have hcmem : c ∈ e := by
      obtain ⟨ys, hys⟩ := List.getLast?_eq_some_iff.mp hg2
      rw [hys]
      simp
    have h6 : List.rdropWhile p l ++ e <+: List.rdropWhile p l ++ List.rtakeWhile p l := by
      rw [he, rdropWhile_append_rtakeWhile]
      exact hpre2
    have h7 : e <+: List.rtakeWhile p l := (List.prefix_append_right_inj _).mp h6
    have hpc : p c = true := List.mem_rtakeWhile_imp (h7.subset hcmem)
    rw [hpc] at hc
    exact absurd hc (by simp)

/-- The stripped string is a contiguous fragment of the original. -/
theorem pyStrip_infix_self (l : List Char) : pyStrip l <:+: l :=
  ( List.rdropWhile_prefix wsC _).isInfix.trans (List.dropWhile_suffix wsC).isInfix

theorem rdropWhile_map (f : Char → Char) (p : Char → Bool) (x : List Char) :
    List.rdropWhile p (x.map f) = (List.rdropWhile (p ∘ f) x).map f := by
  show (List.dropWhile p (x.map f).reverse).reverse
      = ((List.dropWhile (p ∘ f) x.reverse).reverse).map f
  rw [← List.map_reverse, List.dropWhile_map, List.map_reverse]

/-- `strip` and `upper` commute (uppercasing preserves whitespace-ness). -/
theorem pyUpper_pyStrip_comm (l : List Char) : pyStrip (pyUpper l) = pyUpper (pyStrip l) := by
  unfold pyStrip pyUpper
  have hws : wsC ∘ Char.toUpper = wsC := funext fun c => wsC_toUpper c
  rw [List.dropWhile_map, hws, rdropWhile_map, hws]

theorem infix_pyNorm_of_infix_pyUpper {s l : List Char} {c1 c2 : Char}
    (hh : s.head? = some c1) (hc1 : wsC c1 = false)
    (hl : s.getLast? = some c2) (hc2 : wsC c2 = false)
    (h : s <:+: pyUpper l) : s <:+: pyNorm l := by
  have h1 : s <:+: List.rdropWhile wsC ((pyUpper l).dropWhile wsC) :=
    infix_rdropWhile_of_getLast hl hc2 (infix_dropWhile_of_head hh hc1 h)
  have h2 : s <:+: pyStrip (pyUpper l) := h1
  rw [pyNorm]
  rwa [pyUpper_pyStrip_comm] at h2

theorem not_infix_pyNorm_of_not {s l : List Char}
    (h : ¬ s <:+: pyUpper l) : ¬ s <:+: pyNorm l := by
  intro hin
  apply h
  have : pyNorm l <:+: pyUpper l := by
    rw [pyNorm, ← pyUpper_pyStrip_comm]
    exact pyStrip_infix_self _
  exact hin.trans this

theorem infix_take_pyNorm {s l : List Char} {c1 c2 : Char} {n : Nat}
    (hh : s.head? = some c1) (hc1 : wsC c1 = false)
    (hl : s.getLast? = some c2) (hc2 : wsC c2 = false)
    (h : s <:+: (pyUpper l).take n) : s <:+: (pyNorm l).take n := by
  have h1 : s <:+: (List.rdropWhile wsC ((pyUpper l).dropWhile wsC)).take n :=
    infix_take_rdropWhile hl hc2 (infix_take_dropWhile hh hc1 h)
  have h2 : s <:+: (pyStrip (pyUpper l)).take n := h1
  rw [pyNorm]
  rwa [pyUpper_pyStrip_comm] at h2

/-! ## Claim C4: the buy/pass decoder -/

/-- The "BUY present and not negated" condition, on the uppercased text,
exactly as the claim states it. -/
def buyCondU (s : List Char) : Prop :=
  "BUY".data <:+: pyUpper s ∧ ¬ (dontBuyTok <:+: pyUpper s) ∧
    ¬ ("NOT BUY".data <:+: pyUpper s)

/-- The "PASS / DECLINE / leading NO" condition, on the uppercased text,
exactly as the claim states it. -/
def passCondU (s : List Char) : Prop :=
  "PASS".data <:+: pyUpper s ∨ "DECLINE".data <:+: pyUpper s ∨
    "NO".data <:+: (pyUpper s).take 10

instance (s : List Char) : Decidable (buyCondU s) := by unfold buyCondU; infer_instance

instance (s : List Char) : Decidable (passCondU s) := by unfold passCondU; infer_instance

/-- C4, counterexample: the text `"BUY PASS"` satisfies the claim's false
condition (its uppercase form contains `PASS`), yet `parse_buy_decision`
returns `true`, because the code tests the BUY condition first.  This
refutes the claim as stated. -/
theorem C4_counterexample :
    passCondU "BUY PASS".data ∧ parse_buy_decision "BUY PASS".data = true := by
  constructor
  · decide
  · decide

/-- C4 (amended): for every text whose uppercase form contains `BUY` and
neither `DON'T BUY` nor `NOT BUY`, `parse_buy_decision` returns `true`;
and for every text for which that first condition does NOT hold and whose
uppercase form contains `PASS` or `DECLINE` or has `NO` within its first
10 characters, it returns `false`.  (The restriction of the second half
to texts not matching the first condition is forced by the
counterexample: the code tests the BUY condition first.) -/
theorem C4_parse_buy_keywords (s : List Char) :
    (buyCondU s → parse_buy_decision s = true) ∧
    (¬ buyCondU s → passCondU s → parse_buy_decision s = false) := by
  have hbuy : ∀ l : List Char, "BUY".data <:+: pyUpper l → "BUY".data <:+: pyNorm l :=
    fun l h => @infix_pyNorm_of_infix_pyUpper _ _ 'B' 'Y'
      (by decide) (by decide) (by decide) (by decide) h
  have hdont : ∀ l : List Char, dontBuyTok <:+: pyUpper l → dontBuyTok <:+: pyNorm l :=
    fun l h => @infix_pyNorm_of_infix_pyUpper _ _ 'D' 'Y'
      (by decide) (by decide) (by decide) (by decide) h
  have hnot : ∀ l : List Char, "NOT BUY".data <:+: pyUpper l → "NOT BUY".data <:+: pyNorm l :=
    fun l h => @infix_pyNorm_of_infix_pyUpper _ _ 'N' 'Y'
      (by decide) (by decide) (by decide) (by decide) h
  constructor
  · intro hb
    obtain ⟨h1, h2, h3⟩ := hb
    have g1 : "BUY".data <:+: pyNorm s := hbuy s h1
    have g2 : ¬ (dontBuyTok <:+: pyNorm s) := not_infix_pyNorm_of_not h2
    have g3 : ¬ ("NOT BUY".data <:+: pyNorm s) := not_infix_pyNorm_of_not h3
    unfold parse_buy_decision
    rw [if_pos ⟨g1, g2, g3⟩]
  · intro hnb hp
    have gcond : ¬ ("BUY".data <:+: pyNorm s ∧ ¬ (dontBuyTok <:+: pyNorm s) ∧
        ¬ ("NOT BUY".data <:+: pyNorm s)) := by
      intro ⟨h1, h2, h3⟩
      apply hnb
      refine ⟨?_, ?_, ?_⟩
      · have : pyNorm s <:+: pyUpper s := by
          rw [pyNorm, ← pyUpper_pyStrip_comm]
          exact pyStrip_infix_self _
        exact h1.trans this
      · intro hd
        exact h2 (hdont s hd)
      · intro hd
        exact h3 (hnot s hd)
    have gsec : "PASS".data <:+: pyNorm s ∨ "DECLINE".data <:+: pyNorm s ∨
        "NO".data <:+: (pyNorm s).take 10 := by
      rcases hp with h | h | h
      · exact Or.inl (@infix_pyNorm_of_infix_pyUpper _ _ 'P' 'S'
          (by decide) (by decide) (by decide) (by decide) h)
      · exact Or.inr (Or.inl (@infix_pyNorm_of_infix_pyUpper _ _ 'D' 'E'
          (by decide) (by decide) (by decide) (by decide) h))
      · exact Or.inr (Or.inr (@infix_take_pyNorm _ _ 'N' 'O' 10
          (by decide) (by decide) (by decide) (by decide) h))
    unfold parse_buy_decision
    rw [if_neg gcond, if_pos gsec]

/-- Witness for `C4_parse_buy_keywords`, applying it at the texts
`"BUY"` and `"no thanks"`. -/
theorem C4_parse_buy_keywords_witness :
    parse_buy_decision "BUY".data = true ∧ parse_buy_decision "no thanks".data = false :=
  ⟨(C4_parse_buy_keywords "BUY".data).1 (by decide),
   (C4_parse_buy_keywords "no thanks".data).2 (by decide) (by decide)⟩

/-! ## `parse_negotiation_response` and its counter-offer pattern -/

/-- A counter-offer fragment (the dict built by the parser):
properties to give, properties to receive, cash amount. -/
structure CounterOffer where
  give : List (List Char)
  receive : List (List Char)
  cash : Int
deriving DecidableEq

inductive NegoAction where
  | accept
  | reject
  | counter
  | unclear
deriving DecidableEq

/-- Split at the first colon: the characters before it and after it
(`[^:]*` followed by a literal `:`); `none` when no colon remains. -/
def splitAtColon : List Char → Option (List Char × List Char)
  | [] => none
  | c :: t =>
      if c = ':' then some ([], t)
      else
        match splitAtColon t with
        | some (a, b) => some (c :: a, b)
        | none => none

/-- Python `[p.strip() for p in s.split(',') if p.strip()]`. -/
def splitCommaClean (l : List Char) : List (List Char) :=
  ((l.splitOn ',').map pyStrip).filter (· ≠ [])

/-- Numeric value of a digit string, as Python `int` reads it. -/
def digitsToNat (ds : List Char) : Nat :=
  ds.foldl (fun acc c => 10 * acc + (c.toNat - 48)) 0

/-- Match the regex fragment `-?\d+` at the current position (greedy,
at least one digit); returns its integer value. -/
def parseSignedInt (l : List Char) : Option Int :=
  match l with
  | [] => none
  | c :: t =>
      if c = '-' then
        let ds := t.takeWhile Char.isDigit
        if ds = [] then none else some (-(Int.ofNat (digitsToNat ds)))
      else
        let ds := l.takeWhile Char.isDigit
        if ds = [] then none else some (Int.ofNat (digitsToNat ds))

/-- The literal marker of the counter-offer pattern. -/
def tcTok : List Char := "TRADE_COUNTER:".data

/-- Match the tail `\s*([^:]*):\s*([^:]*):\s*(-?\d+)` of the counter
pattern, starting right after the literal `TRADE_COUNTER:`. -/
def matchCounterTail (rest : List Char) : Option (List Char × List Char × Int) :=
  match splitAtColon (rest.dropWhile wsC) with
  | none => none
  | some (g1, r2) =>
      match splitAtColon (r2.dropWhile wsC) with
      | none => none
      | some (g2, r4) =>
          match parseSignedInt (r4.dropWhile wsC) with
          | none => none
          | some cash => some (g1, g2, cash)

/-- `re.search` of `TRADE_COUNTER:\s*([^:]*):\s*([^:]*):\s*(-?\d+)`:
try successive start positions left to right; at each one the match must
begin with the literal marker, and the first position whose tail also
matches wins. -/
def findCounterMatch : List Char → Option (List Char × List Char × Int)
  | [] => none
  | c :: t =>
      if tcTok.isPrefixOf (c :: t) then
        match matchCounterTail ((c :: t).drop tcTok.length) with
        | some r => some r
        | none => findCounterMatch t
      else
        findCounterMatch t

/-- `ActionParser.parse_negotiation_response` from
`monopoly/llm/action_parser.py`: accept on `TRADE_ACCEPT` anywhere or a
leading `ACCEPT`; otherwise reject on `TRADE_REJECT` anywhere or a
leading `REJECT`; otherwise parse a `TRADE_COUNTER:` pattern into a
counter-offer; otherwise unclear. -/
def parse_negotiation_response (s : List Char) : NegoAction × Option CounterOffer :=
  let u := pyNorm s
  if "TRADE_ACCEPT".data <:+: u ∨ "ACCEPT".data <+: u then
    (NegoAction.accept, none)
  else if "TRADE_REJECT".data <:+: u ∨ "REJECT".data <+: u then
    (NegoAction.reject, none)
  else if tcTok <:+: u then
    match findCounterMatch u with
    | some (g1, g2, cash) =>
        (NegoAction.counter,
          some ⟨splitCommaClean (pyStrip g1), splitCommaClean (pyStrip g2), cash⟩)
    | none => (NegoAction.unclear, none)
  else
    (NegoAction.unclear, none)

/-- C5: `parse_negotiation_response` is total — it is a function defined
on every string, the action returned is always one of
accept/reject/counter/unclear, and a counter-offer fragment is attached
exactly in the counter case.  (Totality also gives "never raises": the
embedding has no failure channel.) -/
theorem C5_parse_negotiation_total (s : List Char) :
    ((parse_negotiation_response s).1 = NegoAction.accept ∨
     (parse_negotiation_response s).1 = NegoAction.reject ∨
     (parse_negotiation_response s).1 = NegoAction.counter ∨
     (parse_negotiation_response s).1 = NegoAction.unclear) ∧
    ((parse_negotiation_response s).2.isSome ↔
      (parse_negotiation_response s).1 = NegoAction.counter) := by
  unfold parse_negotiation_response
  by_cases h1 : "TRADE_ACCEPT".data <:+: pyNorm s ∨ "ACCEPT".data <+: pyNorm s
  · simp [h1]
  · rw [if_neg h1]
    by_cases h2 : "TRADE_REJECT".data <:+: pyNorm s ∨ "REJECT".data <+: pyNorm s
    · simp [h2]
    · rw [if_neg h2]
      by_cases h3 : tcTok <:+: pyNorm s
      · rw [if_pos h3]
        cases hm : findCounterMatch (pyNorm s) with
        | none => simp
        | some r =>
            obtain ⟨g1, g2, cash⟩ := r
            simp
      · rw [if_neg h3]
        simp

/-- C9: priority order in `parse_negotiation_response` — the accept
markers win over everything, and the reject markers win over a
`TRADE_COUNTER:` pattern; in particular a text with both
`TRADE_ACCEPT` and `TRADE_REJECT` parses to accept, and one with both
`TRADE_REJECT` and a well-formed counter fragment parses to reject. -/
theorem C9_negotiation_priority (s : List Char) :
    (("TRADE_ACCEPT".data <:+: pyNorm s ∨ "ACCEPT".data <+: pyNorm s) →
      (parse_negotiation_response s).1 = NegoAction.accept) ∧
    (¬ ("TRADE_ACCEPT".data <:+: pyNorm s ∨ "ACCEPT".data <+: pyNorm s) →
      ("TRADE_REJECT".data <:+: pyNorm s ∨ "REJECT".data <+: pyNorm s) →
      (parse_negotiation_response s).1 = NegoAction.reject) ∧
    (parse_negotiation_response "TRADE_ACCEPT and TRADE_REJECT".data).1 = NegoAction.accept ∧
    (parse_negotiation_response "TRADE_REJECT or TRADE_COUNTER:A:B:50".data).1 =
      NegoAction.reject := by
  refine ⟨?_, ?_, by decide, by decide⟩
  · intro h1
    unfold parse_negotiation_response
    simp [h1]
  · intro h1 h2
    unfold parse_negotiation_response
    rw [if_neg h1]
    simp [h2]

/-- Witness for `C9_negotiation_priority`, applying it at concrete texts. -/
theorem C9_negotiation_priority_witness :
    (parse_negotiation_response "TRADE_ACCEPT".data).1 = NegoAction.accept ∧
    (parse_negotiation_response "TRADE_REJECT".data).1 = NegoAction.reject :=
  ⟨(C9_negotiation_priority "TRADE_ACCEPT".data).1 (by decide),
   (C9_negotiation_priority "TRADE_REJECT".data).2.1 (by decide) (by decide)⟩

/-! ## The Transport: `GeminiChat.send_message` and `LlamaChat.send_message`

The provider (`self.chat.send_message` / `ollama.chat`) is an oracle
indexed by the attempt number: each attempt either returns a reply text
or raises an error that the code classifies as rate-limit
(`429` / `rate limit` / `usage limit` in the message) or fatal. -/

/-- Outcome of one underlying provider call. -/
inductive PResult where
  | ok (text : List Char)
  | err (isRateLimit : Bool)
deriving DecidableEq

/-- The backoff table `[120, 240, 480, 960, 1920, 3840]` (seconds). -/
def delays : List Nat := [120, 240, 480, 960, 1920, 3840]

def numDelays : Nat := delays.length

/-- `GeminiChat.send_message`: for each attempt, call the provider; on
success return the stripped reply; on a rate-limit error with attempts
remaining sleep and retry; otherwise return the safe default `"PASS"`. -/
def gemini_send_loop (provider : Nat → PResult) (attempt : Nat) : List Char :=
  if _h : attempt < numDelays then
    match provider attempt with
    | PResult.ok t => pyStrip t
    | PResult.err rl =>
        if rl ∧ attempt < numDelays - 1 then gemini_send_loop provider (attempt + 1)
        else "PASS".data
  else "PASS".data
termination_by numDelays - attempt
decreasing_by omega

def gemini_send (provider : Nat → PResult) : List Char :=
  gemini_send_loop provider 0

inductive Role where
  | system
  | user
  | assistant
deriving DecidableEq

/-- One chat message of the manual history kept by `LlamaChat`. -/
structure Msg where
  role : Role
  content : List Char
deriving DecidableEq

/-- The rollback in the except-branch of `LlamaChat.send_message`:
`if self.history and self.history[-1]['role'] == 'user': self.history.pop()`. -/
def popTrailingUser (h : List Msg) : List Msg :=
  if hne : h ≠ [] then
    if (h.getLast hne).role = Role.user then h.dropLast else h
  else h

/-- `LlamaChat.send_message`: append the USER message, call the provider;
on success append the ASSISTANT reply and return it; on failure remove
the USER message just added, then retry on rate-limit with attempts
remaining, else return `"PASS"`.  Returns the reply and the history. -/
def llama_send_loop (provider : Nat → PResult) (message : List Char)
    (history : List Msg) (attempt : Nat) : List Char × List Msg :=
  if _h : attempt < numDelays then
    let h1 := history ++ [⟨Role.user, message⟩]
    match provider attempt with
    | PResult.ok reply => (reply, h1 ++ [⟨Role.assistant, reply⟩])
    | PResult.err rl =>
        let h2 := popTrailingUser h1
        if rl ∧ attempt < numDelays - 1 then llama_send_loop provider message h2 (attempt + 1)
        else ("PASS".data, h2)
  else ("PASS".data, history)
termination_by numDelays - attempt
decreasing_by omega

def llama_send (provider : Nat → PResult) (message : List Char)
    (history : List Msg) : List Char × List Msg :=
  llama_send_loop provider message history 0

/-- Removing the just-appended USER message restores the history. -/
theorem popTrailingUser_append (history : List Msg) (message : List Char) :
    popTrailingUser (history ++ [⟨Role.user, message⟩]) = history := by
  unfold popTrailingUser
  rw [dif_pos (by simp)]
  rw [if_pos]
  · exact List.dropLast_concat
  · rw [List.getLast_concat]

theorem gemini_loop_pass_of_all_err (provider : Nat → PResult) :
    ∀ m attempt, numDelays - attempt ≤ m →
    (∀ i, attempt ≤ i → i < numDelays → ∀ t, provider i ≠ PResult.ok t) →
    gemini_send_loop provider attempt = "PASS".data := by
  intro m
  induction m with
  | zero =>
      intro attempt hle hna
      unfold gemini_send_loop
      rw [dif_neg (by omega)]
  | succ m ih =>
      intro attempt hle hna
      unfold gemini_send_loop
      by_cases ha : attempt < numDelays
      · rw [dif_pos ha]
        cases hp : provider attempt with
        | ok t => exact absurd hp (hna attempt le_rfl ha t)
        | err rl =>
            dsimp only
            by_cases hc : rl = true ∧ attempt < numDelays - 1
            · rw [if_pos hc]
              exact ih (attempt + 1) (by omega) (fun i hi hlt t => hna i (by omega) hlt t)
            · rw [if_neg hc]
      · rw [dif_neg ha]

theorem gemini_loop_pass_of_fatal (provider : Nat → PResult) (k : Nat)
    (hk : k < numDelays) (hfatal : provider k = PResult.err false) :
    ∀ m attempt, k - attempt ≤ m → attempt ≤ k →
    (∀ j, attempt ≤ j → j < k → provider j = PResult.err true) →
    gemini_send_loop provider attempt = "PASS".data := by
  intro m
  induction m with
  | zero =>
      intro attempt hle hak hpre
      have hek : attempt = k := by omega
      subst hek
      unfold gemini_send_loop
      rw [dif_pos hk]
      simp [hfatal]
  | succ m ih =>
      intro attempt hle hak hpre
      by_cases hek : attempt = k
      · subst hek
        unfold gemini_send_loop
        rw [dif_pos hk]
        simp [hfatal]
      · have hlt : attempt < k := by omega
        unfold gemini_send_loop
        rw [dif_pos (by omega)]
        simp only [hpre attempt le_rfl hlt]
        rw [if_pos ⟨by trivial, by omega⟩]
        exact ih (attempt + 1) (by omega) (by omega) (fun j hj hjk => hpre j (by omega) hjk)

theorem llama_loop_pass_of_all_err (provider : Nat → PResult) (message : List Char) :
    ∀ m attempt history, numDelays - attempt ≤ m →
    (∀ i, attempt ≤ i → i < numDelays → ∀ t, provider i ≠ PResult.ok t) →
    (llama_send_loop provider message history attempt).1 = "PASS".data := by
  intro m
  induction m with
  | zero =>
      intro attempt history hle hna
      unfold llama_send_loop
      rw [dif_neg (by omega)]
  | succ m ih =>
      intro attempt history hle hna
      unfold llama_send_loop
      by_cases ha : attempt < numDelays
      · rw [dif_pos ha]
        cases hp : provider attempt with
        | ok t => exact absurd hp (hna attempt le_rfl ha t)
        | err rl =>
            dsimp only
            by_cases hc : rl = true ∧ attempt < numDelays - 1
            · rw [if_pos hc]
              exact ih (attempt + 1) _ (by omega) (fun i hi hlt t => hna i (by omega) hlt t)
            · rw [if_neg hc]
      · rw [dif_neg ha]

theorem llama_loop_pass_of_fatal (provider : Nat → PResult) (message : List Char) (k : Nat)
    (hk : k < numDelays) (hfatal : provider k = PResult.err false) :
    ∀ m attempt history, k - attempt ≤ m → attempt ≤ k →
    (∀ j, attempt ≤ j → j < k → provider j = PResult.err true) →
    (llama_send_loop provider message history attempt).1 = "PASS".data := by
  intro m
  induction m with
  | zero =>
      intro attempt history hle hak hpre
      have hek : attempt = k := by omega
      subst hek
      unfold llama_send_loop
      rw [dif_pos hk]
      simp [hfatal]
  | succ m ih =>
      intro attempt history hle hak hpre
      by_cases hek : attempt = k
      · subst hek
        unfold llama_send_loop
        rw [dif_pos hk]
        simp [hfatal]
      · have hlt : attempt < k := by omega
        unfold llama_send_loop
        rw [dif_pos (by omega)]
        simp only [hpre attempt le_rfl hlt]
        rw [if_pos ⟨by trivial, by omega⟩]
        exact ih (attempt + 1) _ (by omega) (by omega) (fun j hj hjk => hpre j (by omega) hjk)

/-- C6: Transport degradation.  For both providers: if the provider call
fails on every attempt of the retry budget, or the first failures are
rate-limited and then one attempt fails with a fatal (non-rate-limit)
error, `send_message` returns the safe default `"PASS"` — the caller
always receives a text (the embedding is total and has no error
channel). -/
theorem C6_transport_degrades (provider : Nat → PResult) (message : List Char)
    (history : List Msg) :
    ((∀ i, i < numDelays → ∀ t, provider i ≠ PResult.ok t) →
      gemini_send provider = "PASS".data ∧
      (llama_send provider message history).1 = "PASS".data) ∧
    (∀ k, k < numDelays → (∀ j, j < k → provider j = PResult.err true) →
      provider k = PResult.err false →
      gemini_send provider = "PASS".data ∧
      (llama_send provider message history).1 = "PASS".data) := by
  constructor
  · intro hna
    constructor
    · exact gemini_loop_pass_of_all_err provider numDelays 0 (by omega)
        (fun i hi hlt t => hna i hlt t)
    · exact llama_loop_pass_of_all_err provider message numDelays 0 history (by omega)
        (fun i hi hlt t => hna i hlt t)
  · intro k hk hpre hfatal
    constructor
    · exact gemini_loop_pass_of_fatal provider k hk hfatal k 0 (by omega) (by omega)
        (fun j hj hjk => hpre j hjk)
    · exact llama_loop_pass_of_fatal provider message k hk hfatal k 0 history (by omega)
        (by omega) (fun j hj hjk => hpre j hjk)

/-- Witness for `C6_transport_degrades`: a provider that always fails
with a rate-limit error, and one that fails fatally at once. -/
theorem C6_transport_degrades_witness :
    gemini_send (fun _ => PResult.err true) = "PASS".data ∧
    gemini_send (fun _ => PResult.err false) = "PASS".data :=
  ⟨((C6_transport_degrades (fun _ => PResult.err true) [] []).1
      (fun i hi t h => PResult.noConfusion h)).1,
   ((C6_transport_degrades (fun _ => PResult.err false) [] []).2 0 (by decide)
      (fun j hj => absurd hj (Nat.not_lt_zero j)) rfl).1⟩

/-- C7: Transport history consistency under retry.  If the provider fails
three times with a rate-limit signature and then succeeds with reply `t`,
`LlamaChat.send_message` returns `t` and the session history afterwards
contains exactly one USER/ASSISTANT pair for this exchange — the USER
messages of the failed attempts having been removed. -/
theorem C7_llama_history_consistent (provider : Nat → PResult) (message t : List Char)
    (history : List Msg)
    (h0 : provider 0 = PResult.err true) (h1 : provider 1 = PResult.err true)
    (h2 : provider 2 = PResult.err true) (h3 : provider 3 = PResult.ok t) :
    llama_send provider message history =
      (t, history ++ [⟨Role.user, message⟩, ⟨Role.assistant, t⟩]) := by
  unfold llama_send
  unfold llama_send_loop
  rw [dif_pos (by decide)]
  simp only [h0, popTrailingUser_append]
  rw [if_pos ⟨by trivial, by decide⟩]
  unfold llama_send_loop
  rw [dif_pos (by decide)]
  simp only [h1, popTrailingUser_append]
  rw [if_pos ⟨by trivial, by decide⟩]
  unfold llama_send_loop
  rw [dif_pos (by decide)]
  simp only [h2, popTrailingUser_append]
  rw [if_pos ⟨by trivial, by decide⟩]
  unfold llama_send_loop
  rw [dif_pos (by decide)]
  simp only [h3]
  simp

/-- Witness for `C7_llama_history_consistent`: a provider that fails with
rate-limit errors on attempts 0–2 and succeeds on attempt 3. -/
theorem C7_llama_history_consistent_witness :
    llama_send (fun i => if i < 3 then PResult.err true else PResult.ok "OK".data)
      "hello".data [] =
    ("OK".data, [⟨Role.user, "hello".data⟩, ⟨Role.assistant, "OK".data⟩]) := by
  have h := C7_llama_history_consistent
    (fun i => if i < 3 then PResult.err true else PResult.ok "OK".data)
    "hello".data "OK".data [] (by decide) (by decide) (by decide) (by decide)
  simpa using h

/-! ## Claim C1: `LLMPlayer.negotiate_trade` -/

/-- The fixed counter-offer budget of `negotiate_trade`. -/
def max_counters : Nat := 3

inductive NegoOutcome where
  | success (proposal : CounterOffer) (proposerIsOriginal : Bool)
  | failure
deriving DecidableEq

/-- The loop state of `negotiate_trade`: the current proposal dict, which
of the two players is the current proposer (the roles swap on each
counter-offer), and `counter_count`. -/
structure NegoSt where
  proposal : CounterOffer
  proposerIsOriginal : Bool
  counter_count : Nat
deriving DecidableEq

/-- The `while counter_count <= max_counters` loop of
`LLMPlayer.negotiate_trade` (`monopoly/llm/llm_player.py`), instrumented
with the number of Transport calls made and the trace of `counter_count`
values entering each iteration.  `oracle k` is the responder text
returned by the `k`-th Transport call.  Each iteration sends one prompt
to the current responder; `accept` ends with success, `reject` and
`unclear` with failure, and a `counter` with a parsed fragment either
exhausts the budget or swaps the roles and continues. -/
def negotiate_loop (oracle : Nat → List Char) (k : Nat) (st : NegoSt) :
    NegoOutcome × Nat × List Nat :=
  if _hcc : st.counter_count ≤ max_counters then
    let resp := oracle k
    let pr := parse_negotiation_response resp
    match pr.1, pr.2 with
    | NegoAction.accept, _ =>
        (NegoOutcome.success st.proposal st.proposerIsOriginal, 1, [st.counter_count])
    | NegoAction.reject, _ => (NegoOutcome.failure, 1, [st.counter_count])
    | NegoAction.counter, some off =>
        if hex : st.counter_count + 1 > max_counters then
          (NegoOutcome.failure, 1, [st.counter_count])
        else
          let r := negotiate_loop oracle (k + 1)
            ⟨off, !st.proposerIsOriginal, st.counter_count + 1⟩
          (r.1, r.2.1 + 1, st.counter_count :: r.2.2)
    | NegoAction.counter, none => (NegoOutcome.failure, 1, [st.counter_count])
    | NegoAction.unclear, _ => (NegoOutcome.failure, 1, [st.counter_count])
  else (NegoOutcome.failure, 0, [])
termination_by max_counters + 1 - st.counter_count
decreasing_by simp_wf; omega

/-- `LLMPlayer.negotiate_trade`: run the loop from the initial proposal,
with `counter_count = 0` and the original proposer proposing. -/
def negotiate_trade (oracle : Nat → List Char) (proposal : CounterOffer) :
    NegoOutcome × Nat × List Nat :=
  negotiate_loop oracle 0 ⟨proposal, true, 0⟩

theorem negotiate_loop_bound (oracle : Nat → List Char) :
    ∀ m st k, max_counters + 1 - st.counter_count ≤ m →
    (negotiate_loop oracle k st).2.1 ≤ max_counters + 1 - st.counter_count ∧
    ∀ c ∈ (negotiate_loop oracle k st).2.2, c ≤ max_counters := by
  intro m
  induction m with
  | zero =>
      intro st k hm
      unfold negotiate_loop
      rw [dif_neg (by omega)]
      exact ⟨by simp, by simp⟩
  | succ m ih =>
      intro st k hm
      unfold negotiate_loop
      by_cases hcc : st.counter_count ≤ max_counters
      · rw [dif_pos hcc]
        dsimp only
        cases hpr : parse_negotiation_response (oracle k) with
        | mk act off =>
            dsimp only
            cases act with
            | accept => dsimp only; exact ⟨by omega, by simp; omega⟩
            | reject => dsimp only; exact ⟨by omega, by simp; omega⟩
            | counter =>
                cases off with
                | none => dsimp only; exact ⟨by omega, by simp; omega⟩
                | some o =>
                    dsimp only
                    by_cases hex : st.counter_count + 1 > max_counters
                    · rw [dif_pos hex]
                      dsimp only
                      exact ⟨by omega, by simp; omega⟩
                    · rw [dif_neg hex]
                      have hr := ih ⟨o, !st.proposerIsOriginal, st.counter_count + 1⟩
                        (k + 1) (by simp; omega)
                      refine ⟨?_, ?_⟩
                      · have := hr.1
                        simp only at this ⊢
                        omega
                      · intro c hc
                        simp only [List.mem_cons] at hc
                        rcases hc with hc | hc
                        · omega
                        · exact hr.2 c hc
            | unclear => dsimp only; exact ⟨by omega, by simp; omega⟩
      · rw [dif_neg hcc]
        exact ⟨by simp, by simp⟩

/-- C1: the negotiation protocol is bounded.  `negotiate_trade` (a total
function — termination is by the strictly decreasing counter budget)
makes at most `2 * max_counters + 1` Transport calls, and every
`counter_count` value entering an iteration of its loop is at most
`max_counters`. -/
theorem C1_negotiation_bounded (oracle : Nat → List Char) (proposal : CounterOffer) :
    (negotiate_trade oracle proposal).2.1 ≤ 2 * max_counters + 1 ∧
    ∀ c ∈ (negotiate_trade oracle proposal).2.2, c ≤ max_counters := by
  have h := negotiate_loop_bound oracle (max_counters + 1) ⟨proposal, true, 0⟩ 0 (by omega)
  unfold negotiate_trade
  constructor
  · have := h.1
    simp only at this
    omega
  · exact h.2

/-! ## Claims C2, C3, C10: `LLMPlayer.execute_llm_trade`

The shared state the Trade Executor touches.  The `Player`, `Board` and
`Property` classes of the rules engine are outside the shown sources;
they are modelled from the specification boundary (spec section 6):
`property.owner`/`property.name`, `player.money`, `player.owned` (a
mutable holding list), `player.is_bankrupt`, and the two callbacks
`board.recalculate_monopoly_multipliers(property)` and
`player.update_lists_of_properties_to_trade(board)`. -/

/-- A board property: its name and its owner (a player index). -/
structure PropertySt where
  name : List Char
  owner : Option Nat
deriving DecidableEq

/-- A player: name, cash, holding list (property indices, in insertion
order), bankruptcy flag, and the cached "properties available to trade"
list. -/
structure PlayerSt where
  pname : List Char
  money : Int
  owned : List Nat
  is_bankrupt : Bool
  props_to_trade : List Nat
deriving DecidableEq

def defaultPlayer : PlayerSt := ⟨[], 0, [], false, []⟩

def defaultProperty : PropertySt := ⟨[], none⟩

/-- The shared game state: board property table, per-property monopoly
multiplier table, players. -/
structure GameSt where
  props : List PropertySt
  mult : List Nat
  players : List PlayerSt
deriving DecidableEq

/-- In-place update of one list element (Python `lst[i].field = v`). -/
def updateAt {α : Type} : Nat → (α → α) → List α → List α
  | _, _, [] => []
  | 0, f, p :: rest => f p :: rest
  | i + 1, f, p :: rest => p :: updateAt i f rest

/-- `next((p for p in holder.owned if prop_name.upper() in p.name.upper()), None)`:
the first property in the holding list whose uppercased name contains
the uppercased proposal name as a substring. -/
def findOwnedProp (st : GameSt) (ownedList : List Nat) (nm : List Char) : Option Nat :=
  ownedList.find? fun i =>
    decide (pyUpper nm <:+: pyUpper ((st.props.getD i defaultProperty).name))

/-- Resolve a list of proposal names against a holding list, in order,
failing on the first name that does not resolve (the code returns False
inside the loop). -/
def resolveProps (st : GameSt) (ownedList : List Nat) : List (List Char) → Option (List Nat)
  | [] => some []
  | nm :: rest =>
      match findOwnedProp st ownedList nm with
      | none => none
      | some i =>
          match resolveProps st ownedList rest with
          | none => none
          | some is => some (i :: is)

/-- One property transfer of the mutation phase:
`prop.owner = to; from.owned.remove(prop); to.owned.append(prop);
board.recalculate_monopoly_multipliers(prop)`.
`recalc` is the out-of-scope callback, modelled from the spec: it
recomputes the multiplier table from the board and the transferred
property and touches neither cash nor ownership.  Python `list.remove`
raises `ValueError` when the item is absent (possible when a proposal
names the same property twice); the surrounding `except` then returns
False with the state mutated so far, modelled by `Except.error` carrying
that state. -/
def transferOne (recalc : List PropertySt → Nat → List Nat)
    (fromIdx toIdx : Nat) (st : GameSt) (i : Nat) : Except GameSt GameSt :=
  let st1 := { st with props := updateAt i (fun pr => { pr with owner := some toIdx }) st.props }
  if i ∈ (st1.players.getD fromIdx defaultPlayer).owned then
    let st2 := { st1 with
      players := updateAt fromIdx (fun p => { p with owned := p.owned.erase i }) st1.players }
    let st3 := { st2 with
      players := updateAt toIdx (fun p => { p with owned := p.owned ++ [i] }) st2.players }
    Except.ok { st3 with mult := recalc st3.props i }
  else
    Except.error st1

/-- The `for prop in props_to_give/receive` mutation loops. -/
def transferAll (recalc : List PropertySt → Nat → List Nat)
    (fromIdx toIdx : Nat) : GameSt → List Nat → Except GameSt GameSt
  | st, [] => Except.ok st
  | st, i :: rest =>
      match transferOne recalc fromIdx toIdx st i with
      | Except.ok st2 => transferAll recalc fromIdx toIdx st2 rest
      | Except.error st2 => Except.error st2

/-- The final `for player in players: player.update_lists_of_properties_to_trade(board)`.
`refresh` is the out-of-scope callback, modelled from the spec: each
player's cached trade list is recomputed from the board property table
and the player's index, and nothing else of the player changes. -/
def refreshFrom (refresh : List PropertySt → Nat → List Nat)
    (board : List PropertySt) : Nat → List PlayerSt → List PlayerSt
  | _, [] => []
  | j, p :: rest =>
      { p with props_to_trade := refresh board j } :: refreshFrom refresh board (j + 1) rest

/-- `LLMPlayer.execute_llm_trade` from `monopoly/llm/llm_player.py`:
validate (bankrupt parties, give/receive name resolution, cash
sufficiency) with no mutation, then transfer the properties, move the
cash, and refresh every player's cached trade list.  Returns the success
flag and the new state. -/
def execute_llm_trade (recalc refresh : List PropertySt → Nat → List Nat)
    (pIdx tIdx : Nat) (proposal : CounterOffer) (st : GameSt) : Bool × GameSt :=
  let proposer := st.players.getD pIdx defaultPlayer
  let target := st.players.getD tIdx defaultPlayer
  if proposer.is_bankrupt = true ∨ target.is_bankrupt = true then (false, st)
  else
    match resolveProps st proposer.owned proposal.give with
    | none => (false, st)
    | some gives =>
        match resolveProps st target.owned proposal.receive with
        | none => (false, st)
        | some receives =>
            if proposal.cash > 0 ∧ proposer.money < proposal.cash then (false, st)
            else if proposal.cash < 0 ∧ target.money < |proposal.cash| then (false, st)
            else
              match transferAll recalc pIdx tIdx st gives with
              | Except.error stE => (false, stE)
              | Except.ok st1 =>
                  match transferAll recalc tIdx pIdx st1 receives with
                  | Except.error stE => (false, stE)
                  | Except.ok st2 =>
                      let st3 :=
                        if proposal.cash > 0 then
                          { st2 with
                            players := updateAt tIdx (fun p => { p with money := p.money + proposal.cash }) (updateAt pIdx (fun p => { p with money := p.money - proposal.cash }) st2.players) }
                        else if proposal.cash < 0 then
                          { st2 with
                            players := updateAt tIdx (fun p => { p with money := p.money - |proposal.cash| }) (updateAt pIdx (fun p => { p with money := p.money + |proposal.cash| }) st2.players) }
                        else st2
                      (true, { st3 with players := refreshFrom refresh st3.props 0 st3.players })

theorem resolveProps_none_of_mem {st : GameSt} {ownedList : List Nat}
    {names : List (List Char)} {nm : List Char}
    (hmem : nm ∈ names) (hnone : findOwnedProp st ownedList nm = none) :
    resolveProps st ownedList names = none := by
  induction names with
  | nil => cases hmem
  | cons a rest ih =>
      rcases List.mem_cons.mp hmem with h | h
      · subst h
        unfold resolveProps
        rw [hnone]
      · unfold resolveProps
        cases hfa : findOwnedProp st ownedList a with
        | none => rfl
        | some i =>
            rw [ih h]

/-- C2: Trade Executor atomicity.  For every call whose proposal fails a
precondition — a bankrupt party, a give/receive name that does not
resolve to a property owned by the respective party, or insufficient
cash on the paying side — `execute_llm_trade` returns `false` and the
state is returned untouched: every player's cash and every property's
ownership are identical before and after the call. -/
theorem C2_trade_executor_atomic (recalc refresh : List PropertySt → Nat → List Nat)
    (pIdx tIdx : Nat) (proposal : CounterOffer) (st : GameSt)
    (h : (st.players.getD pIdx defaultPlayer).is_bankrupt = true ∨
         (st.players.getD tIdx defaultPlayer).is_bankrupt = true ∨
         (∃ nm ∈ proposal.give,
           findOwnedProp st (st.players.getD pIdx defaultPlayer).owned nm = none) ∨
         (∃ nm ∈ proposal.receive,
           findOwnedProp st (st.players.getD tIdx defaultPlayer).owned nm = none) ∨
         (proposal.cash > 0 ∧ (st.players.getD pIdx defaultPlayer).money < proposal.cash) ∨
         (proposal.cash < 0 ∧ (st.players.getD tIdx defaultPlayer).money < |proposal.cash|)) :
    execute_llm_trade recalc refresh pIdx tIdx proposal st = (false, st) := by
  unfold execute_llm_trade
  dsimp only
  by_cases hb : (st.players.getD pIdx defaultPlayer).is_bankrupt = true ∨
      (st.players.getD tIdx defaultPlayer).is_bankrupt = true
  · rw [if_pos hb]
  · rw [if_neg hb]
    rcases h with h | h | h | h | h | h
    · exact absurd (Or.inl h) hb
    · exact absurd (Or.inr h) hb
    · obtain ⟨nm, hmem, hnone⟩ := h
      rw [resolveProps_none_of_mem hmem hnone]
    · obtain ⟨nm, hmem, hnone⟩ := h
      cases hg : resolveProps st (st.players.getD pIdx defaultPlayer).owned proposal.give with
      | none => rfl
      | some gives =>
          rw [resolveProps_none_of_mem hmem hnone]
    · cases hg : resolveProps st (st.players.getD pIdx defaultPlayer).owned proposal.give with
      | none => rfl
      | some gives =>
          cases hr : resolveProps st (st.players.getD tIdx defaultPlayer).owned
              proposal.receive with
          | none => rfl
          | some receives =>
              dsimp only
              rw [if_pos h]
    · cases hg : resolveProps st (st.players.getD pIdx defaultPlayer).owned proposal.give with
      | none => rfl
      | some gives =>
          cases hr : resolveProps st (st.players.getD tIdx defaultPlayer).owned
              proposal.receive with
          | none => rfl
          | some receives =>
              dsimp only
              rw [if_neg (by rintro ⟨h1, _⟩; omega), if_pos h]

/-- Witness for `C2_trade_executor_atomic`: a proposal from a bankrupt
player is rejected with the state unchanged. -/
theorem C2_trade_executor_atomic_witness :
    execute_llm_trade (fun _ _ => []) (fun _ _ => []) 0 1 ⟨[], [], 0⟩
      ⟨[], [], [⟨"A".data, 100, [], true, []⟩, ⟨"B".data, 100, [], false, []⟩]⟩ =
    (false, ⟨[], [], [⟨"A".data, 100, [], true, []⟩, ⟨"B".data, 100, [], false, []⟩]⟩) :=
  C2_trade_executor_atomic (fun _ _ => []) (fun _ _ => []) 0 1 ⟨[], [], 0⟩
    ⟨[], [], [⟨"A".data, 100, [], true, []⟩, ⟨"B".data, 100, [], false, []⟩]⟩
    (Or.inl (by decide))

theorem updateAt_length {α : Type} (f : α → α) :
    ∀ (i : Nat) (l : List α), (updateAt i f l).length = l.length := by
  intro i l
  induction l generalizing i with
  | nil => cases i <;> rfl
  | cons a rest ih =>
      cases i with
      | zero => rfl
      | succ j => simpa [updateAt] using ih j

theorem updateAt_map_money (f : PlayerSt → PlayerSt)
    (hf : ∀ p, (f p).money = p.money) :
    ∀ (i : Nat) (l : List PlayerSt),
    (updateAt i f l).map PlayerSt.money = l.map PlayerSt.money := by
  intro i l
  induction l generalizing i with
  | nil => cases i <;> rfl
  | cons a rest ih =>
      cases i with
      | zero => simp [updateAt, hf]
      | succ j => simpa [updateAt] using ih j

theorem refreshFrom_map_money (refresh : List PropertySt → Nat → List Nat)
    (board : List PropertySt) :
    ∀ (j : Nat) (l : List PlayerSt),
    (refreshFrom refresh board j l).map PlayerSt.money = l.map PlayerSt.money := by
  intro j l
  induction l generalizing j with
  | nil => rfl
  | cons a rest ih => simpa [refreshFrom] using ih (j + 1)

theorem sum_money_updateAt (f : PlayerSt → PlayerSt) (d : Int)
    (hf : ∀ p, (f p).money = p.money + d) :
    ∀ (i : Nat) (l : List PlayerSt),
    ((updateAt i f l).map PlayerSt.money).sum
      = (l.map PlayerSt.money).sum + (if i < l.length then d else 0) := by
  intro i l
  induction l generalizing i with
  | nil => simp [updateAt]
  | cons a rest ih =>
      cases i with
      | zero =>
          simp only [updateAt, List.map_cons, List.sum_cons, hf, List.length_cons]
          rw [if_pos (by omega)]
          ring
      | succ j =>
          simp only [updateAt, List.map_cons, List.sum_cons, List.length_cons, ih j,
            Nat.succ_lt_succ_iff]
          ring

theorem getD_money_eq_of_map_money_eq {l1 l2 : List PlayerSt}
    (h : l1.map PlayerSt.money = l2.map PlayerSt.money) (j : Nat) :
    (l1.getD j defaultPlayer).money = (l2.getD j defaultPlayer).money := by
  have key : ∀ (l : List PlayerSt) (j : Nat),
      (l.getD j defaultPlayer).money = (l.map PlayerSt.money).getD j defaultPlayer.money := by
    intro l
    induction l with
    | nil => intro j; rfl
    | cons a rest ih =>
        intro j
        cases j with
        | zero => rfl
        | succ k => exact ih k
  rw [key, key, h]

theorem getD_updateAt_ne {α : Type} (d : α) (f : α → α) :
    ∀ (i j : Nat) (l : List α), i ≠ j → (updateAt i f l).getD j d = l.getD j d := by
  intro i j l
  induction l generalizing i j with
  | nil => intro _; cases i <;> rfl
  | cons a rest ih =>
      intro hij
      cases i with
      | zero =>
          cases j with
          | zero => exact absurd rfl hij
          | succ k => rfl
      | succ i2 =>
          cases j with
          | zero => rfl
          | succ k =>
              have hne : i2 ≠ k := fun he => hij (by rw [he])
              simpa [updateAt] using ih i2 k hne

theorem getD_updateAt_self {α : Type} (d : α) (f : α → α) :
    ∀ (i : Nat) (l : List α), i < l.length → (updateAt i f l).getD i d = f (l.getD i d) := by
  intro i l
  induction l generalizing i with
  | nil => intro h; cases h
  | cons a rest ih =>
      intro h
      cases i with
      | zero => rfl
      | succ j => simpa [updateAt] using ih j (by simpa using h)

theorem transferOne_ok_money {recalc : List PropertySt → Nat → List Nat}
    {fromIdx toIdx : Nat} {st : GameSt} {i : Nat} {st2 : GameSt}
    (h : transferOne recalc fromIdx toIdx st i = Except.ok st2) :
    st2.players.map PlayerSt.money = st.players.map PlayerSt.money := by
  unfold transferOne at h
  dsimp only at h
  by_cases hmem : i ∈ (st.players.getD fromIdx defaultPlayer).owned
  · rw [if_pos hmem] at h
    have h2 : st2.players = updateAt toIdx (fun p => { p with owned := p.owned ++ [i] })
        (updateAt fromIdx (fun p => { p with owned := p.owned.erase i }) st.players) := by
      cases h
      rfl
    rw [h2,
      updateAt_map_money (fun p => { p with owned := p.owned ++ [i] }) (fun p => rfl),
      updateAt_map_money (fun p => { p with owned := p.owned.erase i }) (fun p => rfl)]
  · rw [if_neg hmem] at h
    exact absurd h (by simp)

theorem transferAll_ok_money {recalc : List PropertySt → Nat → List Nat}
    {fromIdx toIdx : Nat} :
    ∀ {is : List Nat} {st st2 : GameSt},
    transferAll recalc fromIdx toIdx st is = Except.ok st2 →
    st2.players.map PlayerSt.money = st.players.map PlayerSt.money := by
  intro is
  induction is with
  | nil =>
      intro st st2 h
      unfold transferAll at h
      cases h
      rfl
  | cons i rest ih =>
      intro st st2 h
      unfold transferAll at h
      cases ht : transferOne recalc fromIdx toIdx st i with
      | ok stm =>
          rw [ht] at h
          dsimp only at h
          exact (ih h).trans (transferOne_ok_money ht)
      | error stm =>
          rw [ht] at h
          exact absurd h (by simp)

def moneySum (l : List PlayerSt) : Int := (l.map PlayerSt.money).sum

theorem refreshFrom_money_getD (refresh : List PropertySt → Nat → List Nat)
    (board : List PropertySt) (j0 : Nat) (l : List PlayerSt) (j : Nat) :
    ((refreshFrom refresh board j0 l).getD j defaultPlayer).money
      = (l.getD j defaultPlayer).money :=
  getD_money_eq_of_map_money_eq (refreshFrom_map_money refresh board j0 l) j

/-- C10: cash conservation.  Whenever `execute_llm_trade` returns `true`,
the total cash over all players is unchanged (cash only moves between
the two parties), and the cash of every player other than the proposer
and the target is unchanged. -/
theorem C10_cash_conservation (recalc refresh : List PropertySt → Nat → List Nat)
    (pIdx tIdx : Nat) (proposal : CounterOffer) (st st2 : GameSt)
    (hp : pIdx < st.players.length) (ht : tIdx < st.players.length)
    (h : execute_llm_trade recalc refresh pIdx tIdx proposal st = (true, st2)) :
    moneySum st2.players = moneySum st.players ∧
    ∀ j, j ≠ pIdx → j ≠ tIdx →
      (st2.players.getD j defaultPlayer).money = (st.players.getD j defaultPlayer).money := by
  unfold execute_llm_trade at h
  dsimp only at h
  by_cases hb : (st.players.getD pIdx defaultPlayer).is_bankrupt = true ∨
      (st.players.getD tIdx defaultPlayer).is_bankrupt = true
  · rw [if_pos hb] at h
    exact absurd h (by simp)
  rw [if_neg hb] at h
  cases hg : resolveProps st (st.players.getD pIdx defaultPlayer).owned proposal.give with
  | none =>
      rw [hg] at h
      exact absurd h (by simp)
  | some gives =>
  rw [hg] at h
  dsimp only at h
  cases hr : resolveProps st (st.players.getD tIdx defaultPlayer).owned proposal.receive with
  | none =>
      rw [hr] at h
      exact absurd h (by simp)
  | some receives =>
  rw [hr] at h
  dsimp only at h
  by_cases hc1 : proposal.cash > 0 ∧ (st.players.getD pIdx defaultPlayer).money < proposal.cash
  · rw [if_pos hc1] at h
    exact absurd h (by simp)
  rw [if_neg hc1] at h
  by_cases hc2 : proposal.cash < 0 ∧
      (st.players.getD tIdx defaultPlayer).money < |proposal.cash|
  · rw [if_pos hc2] at h
    exact absurd h (by simp)
  rw [if_neg hc2] at h
  cases hta : transferAll recalc pIdx tIdx st gives with
  | error stE =>
      rw [hta] at h
      exact absurd h (by simp)
  | ok stA =>
  rw [hta] at h
  dsimp only at h
  cases htb : transferAll recalc tIdx pIdx stA receives with
  | error stE =>
      rw [htb] at h
      exact absurd h (by simp)
  | ok stB =>
  rw [htb] at h
  dsimp only at h
  simp only [Prod.mk.injEq, true_and] at h
  subst h
  have hmapAB : stB.players.map PlayerSt.money = st.players.map PlayerSt.money :=
    (transferAll_ok_money htb).trans (transferAll_ok_money hta)
  have hlenB : stB.players.length = st.players.length := by
    have := congrArg List.length hmapAB
    simpa using this
  by_cases hs1 : proposal.cash > 0
  · rw [if_pos hs1]
    dsimp only
    have hf1 : ∀ p : PlayerSt,
        (PlayerSt.money { p with money := p.money - proposal.cash }) = p.money + (-proposal.cash) := by
      intro p
      show p.money - proposal.cash = p.money + (-proposal.cash)
      ring
    have hf2 : ∀ p : PlayerSt,
        (PlayerSt.money { p with money := p.money + proposal.cash }) = p.money + proposal.cash := by
      intro p
      rfl
    constructor
    · unfold moneySum
      rw [refreshFrom_map_money]
      rw [sum_money_updateAt (fun p => { p with money := p.money + proposal.cash })
        proposal.cash hf2]
      rw [sum_money_updateAt (fun p => { p with money := p.money - proposal.cash })
        (-proposal.cash) hf1]
      rw [if_pos (by rw [hlenB]; exact hp)]
      rw [if_pos (by rw [updateAt_length, hlenB]; exact ht)]
      have hsum := congrArg List.sum hmapAB
      omega
    · intro j hjp hjt
      rw [refreshFrom_money_getD]
      rw [getD_updateAt_ne defaultPlayer _ tIdx j _ (fun he => hjt he.symm)]
      rw [getD_updateAt_ne defaultPlayer _ pIdx j _ (fun he => hjp he.symm)]
      exact getD_money_eq_of_map_money_eq hmapAB j
  rw [if_neg hs1]
  by_cases hs2 : proposal.cash < 0
  · rw [if_pos hs2]
    dsimp only
    have hf1 : ∀ p : PlayerSt,
        (PlayerSt.money { p with money := p.money + |proposal.cash| }) = p.money + |proposal.cash| := by
      intro p
      rfl
    have hf2 : ∀ p : PlayerSt,
        (PlayerSt.money { p with money := p.money - |proposal.cash| }) = p.money + (-|proposal.cash|) := by
      intro p
      show p.money - |proposal.cash| = p.money + (-|proposal.cash|)
      ring
    constructor
    · unfold moneySum
      rw [refreshFrom_map_money]
      rw [sum_money_updateAt (fun p => { p with money := p.money - |proposal.cash| })
        (-|proposal.cash|) hf2]
      rw [sum_money_updateAt (fun p => { p with money := p.money + |proposal.cash| })
        |proposal.cash| hf1]
      rw [if_pos (by rw [hlenB]; exact hp)]
      rw [if_pos (by rw [updateAt_length, hlenB]; exact ht)]
      have hsum := congrArg List.sum hmapAB
      omega
    · intro j hjp hjt
      rw [refreshFrom_money_getD]
      rw [getD_updateAt_ne defaultPlayer _ tIdx j _ (fun he => hjt he.symm)]
      rw [getD_updateAt_ne defaultPlayer _ pIdx j _ (fun he => hjp he.symm)]
      exact getD_money_eq_of_map_money_eq hmapAB j
  rw [if_neg hs2]
  constructor
  · unfold moneySum
    rw [refreshFrom_map_money, hmapAB]
  · intro j hjp hjt
    rw [refreshFrom_money_getD]
    exact getD_money_eq_of_map_money_eq hmapAB j

/-- Witness for `C10_cash_conservation`: a concrete cash-only trade. -/
theorem C10_cash_conservation_witness :
    moneySum ([⟨"A".data, 50, [], false, []⟩, ⟨"B".data, 60, [], false, []⟩] : List PlayerSt)
      = moneySum ([⟨"A".data, 100, [], false, []⟩, ⟨"B".data, 10, [], false, []⟩] : List PlayerSt) :=
  (C10_cash_conservation (fun _ _ => []) (fun _ _ => []) 0 1 ⟨[], [], 50⟩
    ⟨[], [], [⟨"A".data, 100, [], false, []⟩, ⟨"B".data, 10, [], false, []⟩]⟩
    ⟨[], [], [⟨"A".data, 50, [], false, []⟩, ⟨"B".data, 60, [], false, []⟩]⟩
    (by decide) (by decide) (by decide)).1

theorem refreshFrom_getD_cache (refresh : List PropertySt → Nat → List Nat)
    (board : List PropertySt) :
    ∀ (j0 : Nat) (l : List PlayerSt) (j : Nat), j < l.length →
    ((refreshFrom refresh board j0 l).getD j defaultPlayer).props_to_trade
      = refresh board (j0 + j) := by
  intro j0 l
  induction l generalizing j0 with
  | nil =>
      intro j hj
      cases hj
  | cons a rest ih =>
      intro j hj
      cases j with
      | zero => rfl
      | succ k =>
          have := ih (j0 + 1) k (by simpa using hj)
          rw [show j0 + (k + 1) = (j0 + 1) + k by omega]
          exact this

/-- C3: round-trip of a valid one-for-one trade with cash.  If the
proposer (non-bankrupt) resolves give-name `nm1` to property `i1` it
owns, the target (non-bankrupt) resolves receive-name `nm2` to property
`i2`, and the proposer can pay `c > 0`, then `execute_llm_trade` returns
`true`, ownership of `i1` moves to the target and of `i2` to the
proposer, the proposer pays `c` and the target receives `c`, and every
player's cached list of properties available to trade has been refreshed
against the post-trade board. -/
theorem C3_trade_round_trip (recalc refresh : List PropertySt → Nat → List Nat)
    (pIdx tIdx i1 i2 : Nat) (nm1 nm2 : List Char) (c : Int) (st : GameSt)
    (hp : pIdx < st.players.length) (ht : tIdx < st.players.length) (hpt : pIdx ≠ tIdx)
    (hv1 : i1 < st.props.length) (hv2 : i2 < st.props.length) (hi12 : i1 ≠ i2)
    (hbp : (st.players.getD pIdx defaultPlayer).is_bankrupt = false)
    (hbt : (st.players.getD tIdx defaultPlayer).is_bankrupt = false)
    (hf1 : findOwnedProp st (st.players.getD pIdx defaultPlayer).owned nm1 = some i1)
    (hf2 : findOwnedProp st (st.players.getD tIdx defaultPlayer).owned nm2 = some i2)
    (hc0 : 0 < c)
    (hmon : c ≤ (st.players.getD pIdx defaultPlayer).money) :
    (execute_llm_trade recalc refresh pIdx tIdx ⟨[nm1], [nm2], c⟩ st).1 = true ∧
    ((execute_llm_trade recalc refresh pIdx tIdx ⟨[nm1], [nm2], c⟩ st).2.props.getD i1
        defaultProperty).owner = some tIdx ∧
    ((execute_llm_trade recalc refresh pIdx tIdx ⟨[nm1], [nm2], c⟩ st).2.props.getD i2
        defaultProperty).owner = some pIdx ∧
    ((execute_llm_trade recalc refresh pIdx tIdx ⟨[nm1], [nm2], c⟩ st).2.players.getD pIdx
        defaultPlayer).money = (st.players.getD pIdx defaultPlayer).money - c ∧
    ((execute_llm_trade recalc refresh pIdx tIdx ⟨[nm1], [nm2], c⟩ st).2.players.getD tIdx
        defaultPlayer).money = (st.players.getD tIdx defaultPlayer).money + c ∧
    ∀ j, j < st.players.length →
      ((execute_llm_trade recalc refresh pIdx tIdx ⟨[nm1], [nm2], c⟩ st).2.players.getD j
          defaultPlayer).props_to_trade
        = refresh ((execute_llm_trade recalc refresh pIdx tIdx ⟨[nm1], [nm2], c⟩ st).2.props) j := by
  have hmem1 : i1 ∈ (st.players.getD pIdx defaultPlayer).owned := List.mem_of_find?_eq_some hf1
  have hmem2 : i2 ∈ (st.players.getD tIdx defaultPlayer).owned := List.mem_of_find?_eq_some hf2
  have ha1 : transferOne recalc pIdx tIdx st i1 = Except.ok
      ⟨updateAt i1 (fun pr => { pr with owner := some tIdx }) st.props,
       recalc (updateAt i1 (fun pr => { pr with owner := some tIdx }) st.props) i1,
       updateAt tIdx (fun p => { p with owned := p.owned ++ [i1] })
         (updateAt pIdx (fun p => { p with owned := p.owned.erase i1 }) st.players)⟩ := by
    unfold transferOne
    dsimp only
    rw [if_pos hmem1]
  have hta : transferAll recalc pIdx tIdx st [i1] = Except.ok
      ⟨updateAt i1 (fun pr => { pr with owner := some tIdx }) st.props,
       recalc (updateAt i1 (fun pr => { pr with owner := some tIdx }) st.props) i1,
       updateAt tIdx (fun p => { p with owned := p.owned ++ [i1] })
         (updateAt pIdx (fun p => { p with owned := p.owned.erase i1 }) st.players)⟩ := by
    unfold transferAll
    rw [ha1]
    rfl
  have hgettA : (updateAt tIdx (fun p => { p with owned := p.owned ++ [i1] })
      (updateAt pIdx (fun p => { p with owned := p.owned.erase i1 }) st.players)).getD tIdx
        defaultPlayer
      = { st.players.getD tIdx defaultPlayer with
          owned := (st.players.getD tIdx defaultPlayer).owned ++ [i1] } := by
    rw [getD_updateAt_self defaultPlayer _ tIdx _ (by rw [updateAt_length]; exact ht)]
    rw [getD_updateAt_ne defaultPlayer _ pIdx tIdx _ hpt]
  have hm2 : i2 ∈ ((updateAt tIdx (fun p => { p with owned := p.owned ++ [i1] })
      (updateAt pIdx (fun p => { p with owned := p.owned.erase i1 }) st.players)).getD tIdx
        defaultPlayer).owned := by
    rw [hgettA]
    exact List.mem_append_left _ hmem2
  have hb1 : transferOne recalc tIdx pIdx
      ⟨updateAt i1 (fun pr => { pr with owner := some tIdx }) st.props,
       recalc (updateAt i1 (fun pr => { pr with owner := some tIdx }) st.props) i1,
       updateAt tIdx (fun p => { p with owned := p.owned ++ [i1] })
         (updateAt pIdx (fun p => { p with owned := p.owned.erase i1 }) st.players)⟩ i2
      = Except.ok
      ⟨updateAt i2 (fun pr => { pr with owner := some pIdx })
         (updateAt i1 (fun pr => { pr with owner := some tIdx }) st.props),
       recalc (updateAt i2 (fun pr => { pr with owner := some pIdx })
         (updateAt i1 (fun pr => { pr with owner := some tIdx }) st.props)) i2,
       updateAt pIdx (fun p => { p with owned := p.owned ++ [i2] })
         (updateAt tIdx (fun p => { p with owned := p.owned.erase i2 })
           (updateAt tIdx (fun p => { p with owned := p.owned ++ [i1] })
             (updateAt pIdx (fun p => { p with owned := p.owned.erase i1 }) st.players)))⟩ := by
    unfold transferOne
    dsimp only
    rw [if_pos hm2]
  have htb : transferAll recalc tIdx pIdx
      ⟨updateAt i1 (fun pr => { pr with owner := some tIdx }) st.props,
       recalc (updateAt i1 (fun pr => { pr with owner := some tIdx }) st.props) i1,
       updateAt tIdx (fun p => { p with owned := p.owned ++ [i1] })
         (updateAt pIdx (fun p => { p with owned := p.owned.erase i1 }) st.players)⟩ [i2]
      = Except.ok
      ⟨updateAt i2 (fun pr => { pr with owner := some pIdx })
         (updateAt i1 (fun pr => { pr with owner := some tIdx }) st.props),
       recalc (updateAt i2 (fun pr => { pr with owner := some pIdx })
         (updateAt i1 (fun pr => { pr with owner := some tIdx }) st.props)) i2,
       updateAt pIdx (fun p => { p with owned := p.owned ++ [i2] })
         (updateAt tIdx (fun p => { p with owned := p.owned.erase i2 })
           (updateAt tIdx (fun p => { p with owned := p.owned ++ [i1] })
             (updateAt pIdx (fun p => { p with owned := p.owned.erase i1 }) st.players)))⟩ := by
    unfold transferAll
    rw [hb1]
    rfl
  have hg1 : resolveProps st (st.players.getD pIdx defaultPlayer).owned [nm1] = some [i1] := by
    unfold resolveProps
    rw [hf1]
    rfl
  have hg2 : resolveProps st (st.players.getD tIdx defaultPlayer).owned [nm2] = some [i2] := by
    unfold resolveProps
    rw [hf2]
    rfl
  have hres : execute_llm_trade recalc refresh pIdx tIdx ⟨[nm1], [nm2], c⟩ st
      = (true,
          ⟨updateAt i2 (fun pr => { pr with owner := some pIdx })
             (updateAt i1 (fun pr => { pr with owner := some tIdx }) st.props),
           recalc (updateAt i2 (fun pr => { pr with owner := some pIdx })
             (updateAt i1 (fun pr => { pr with owner := some tIdx }) st.props)) i2,
           refreshFrom refresh
             (updateAt i2 (fun pr => { pr with owner := some pIdx })
               (updateAt i1 (fun pr => { pr with owner := some tIdx }) st.props)) 0
             (updateAt tIdx (fun p => { p with money := p.money + c })
               (updateAt pIdx (fun p => { p with money := p.money - c })
                 (updateAt pIdx (fun p => { p with owned := p.owned ++ [i2] })
                   (updateAt tIdx (fun p => { p with owned := p.owned.erase i2 })
                     (updateAt tIdx (fun p => { p with owned := p.owned ++ [i1] })
                       (updateAt pIdx (fun p => { p with owned := p.owned.erase i1 })
                         st.players))))))⟩) := by
    unfold execute_llm_trade
    dsimp only
    rw [if_neg (by rw [hbp, hbt]; simp)]
    rw [hg1]
    dsimp only
    rw [hg2]
    dsimp only
    rw [if_neg (by rintro ⟨x1, x2⟩; omega)]
    rw [if_neg (by rintro ⟨x1, x2⟩; omega)]
    rw [hta]
    dsimp only
    rw [htb]
    dsimp only
    rw [if_pos hc0]
  rw [hres]
  refine ⟨rfl, ?_, ?_, ?_, ?_, ?_⟩
  · dsimp only
    rw [getD_updateAt_ne defaultProperty _ i2 i1 _ (fun he => hi12 he.symm)]
    rw [getD_updateAt_self defaultProperty _ i1 _ hv1]
  · dsimp only
    rw [getD_updateAt_self defaultProperty _ i2 _ (by rw [updateAt_length]; exact hv2)]
  · dsimp only
    rw [refreshFrom_money_getD]
    rw [getD_updateAt_ne defaultPlayer _ tIdx pIdx _ (fun he => hpt he.symm)]
    rw [getD_updateAt_self defaultPlayer _ pIdx _
      (by simp only [updateAt_length]; exact hp)]
    dsimp only
    rw [getD_updateAt_self defaultPlayer _ pIdx _
      (by simp only [updateAt_length]; exact hp)]
    dsimp only
    rw [getD_updateAt_ne defaultPlayer _ tIdx pIdx _ (fun he => hpt he.symm)]
    rw [getD_updateAt_ne defaultPlayer _ tIdx pIdx _ (fun he => hpt he.symm)]
    rw [getD_updateAt_self defaultPlayer _ pIdx _ hp]
  · dsimp only
    rw [refreshFrom_money_getD]
    rw [getD_updateAt_self defaultPlayer _ tIdx _
      (by simp only [updateAt_length]; exact ht)]
    dsimp only
    rw [getD_updateAt_ne defaultPlayer _ pIdx tIdx _ hpt]
    rw [getD_updateAt_ne defaultPlayer _ pIdx tIdx _ hpt]
    rw [getD_updateAt_self defaultPlayer _ tIdx _
      (by simp only [updateAt_length]; exact ht)]
    dsimp only
    rw [getD_updateAt_self defaultPlayer _ tIdx _
      (by simp only [updateAt_length]; exact ht)]
    dsimp only
    rw [getD_updateAt_ne defaultPlayer _ pIdx tIdx _ hpt]
  · intro j hj
    dsimp only
    rw [refreshFrom_getD_cache refresh _ 0 _ j
      (by simp only [updateAt_length]; exact hj)]
    rw [Nat.zero_add]

/-- Witness for `C3_trade_round_trip`: a concrete two-player,
two-property state executing `{give:[PARK PLACE], receive:[BOARDWALK],
cash:100}`. -/
theorem C3_trade_round_trip_witness :
    (execute_llm_trade (fun _ _ => []) (fun _ _ => []) 0 1
      ⟨["PARK PLACE".data], ["BOARDWALK".data], 100⟩
      ⟨[⟨"PARK PLACE".data, some 0⟩, ⟨"BOARDWALK".data, some 1⟩], [],
       [⟨"A".data, 500, [0], false, []⟩, ⟨"B".data, 0, [1], false, []⟩]⟩).1 = true :=
  (C3_trade_round_trip (fun _ _ => []) (fun _ _ => []) 0 1 0 1
    "PARK PLACE".data "BOARDWALK".data 100
    ⟨[⟨"PARK PLACE".data, some 0⟩, ⟨"BOARDWALK".data, some 1⟩], [],
     [⟨"A".data, 500, [0], false, []⟩, ⟨"B".data, 0, [1], false, []⟩]⟩
    (by decide) (by decide) (by decide) (by decide) (by decide) (by decide)
    (by decide) (by decide) (by decide) (by decide) (by decide) (by decide)).1

/-! ## Claim C8: `LLMPlayer._build_full_context` -/

/-- A property as the Context Builder reads it. -/
structure CtxProperty where
  name : List Char
  ownerName : Option (List Char)
  has_houses : Nat
  has_hotel : Nat
  is_mortgaged : Bool
deriving DecidableEq

/-- A player as the Context Builder reads it. -/
structure CtxPlayer where
  name : List Char
  money : Int
  owned : List CtxProperty
  position : Nat
  is_bankrupt : Bool
  isLLM : Bool
deriving DecidableEq

structure CtxCell where
  cellName : List Char
deriving DecidableEq

/-- The board as the Context Builder reads it: the cell table and the
`board.groups` dict (an association list in insertion order — the
builder sorts its keys before iterating). -/
structure CtxBoard where
  cells : List CtxCell
  groups : List (List Char × List CtxProperty)
deriving DecidableEq

def natChars (n : Nat) : List Char := (toString n).data

def intChars (n : Int) : List Char := (toString n).data

/-- Python `sorted` on strings: lexicographic comparison by code point. -/
def lexLe : List Char → List Char → Bool
  | [], _ => true
  | _ :: _, [] => false
  | a :: as, b :: bs =>
      if a.toNat < b.toNat then true
      else if b.toNat < a.toNat then false
      else lexLe as bs

/-- One property detail `f"{p.name}:{status}"` of the board section. -/
def propLine (p : CtxProperty) : List Char :=
  let owner := p.ownerName.getD "None".data
  let status1 :=
    if p.has_hotel ≠ 0 then owner ++ ":HOTEL".data
    else if p.has_houses ≠ 0 then owner ++ ":".data ++ natChars p.has_houses ++ "H".data
    else owner
  let status2 := if p.is_mortgaged then status1 ++ ":M".data else status1
  p.name ++ ":".data ++ status2

/-- One opponent line of the `Players:` section. -/
def playerLine (b : CtxBoard) (p : CtxPlayer) : List Char :=
  let posCell := (b.cells.getD p.position ⟨[]⟩).cellName
  let props := (p.owned.take 5).map CtxProperty.name ++
    (if p.owned.length > 5 then ["(".data ++ natChars p.owned.length ++ " total)".data] else [])
  let propsStr := List.intercalate ",".data props
  let houses := (p.owned.map CtxProperty.has_houses).sum
  let hotels := (p.owned.map CtxProperty.has_hotel).sum
  let improv :=
    if houses ≠ 0 ∨ hotels ≠ 0 then
      ",".data ++ natChars houses ++ "H,".data ++ natChars hotels ++ "hotels".data
    else []
  let ptype := if p.isLLM then " [LLM]".data else []
  p.name ++ ptype ++ ":$".data ++ intChars p.money ++ ",".data ++ natChars p.owned.length
    ++ "props(".data ++ propsStr ++ ")".data ++ improv ++ ",at ".data ++ posCell

/-- One group line `f"{group_name}:{'|'.join(prop_details)}"`. -/
def groupLine (b : CtxBoard) (gname : List Char) : List Char :=
  let ps := ((b.groups.find? fun e => e.1 == gname).map Prod.snd).getD []
  gname ++ ":".data ++ List.intercalate "|".data (ps.map propLine)

/-- `LLMPlayer._build_full_context` from `monopoly/llm/llm_player.py`:
the opponent lines (non-bankrupt players other than `self`), then the
board section with one line per property group, the group names iterated
in sorted order. -/
def build_full_context (self : CtxPlayer) (b : CtxBoard)
    (players : List CtxPlayer) : List Char :=
  let others := players.filter fun p => p != self && !p.is_bankrupt
  let headerLines :=
    if others ≠ [] then "Players:".data :: others.map (playerLine b) else []
  let sortedKeys := (b.groups.map Prod.fst).mergeSort lexLe
  let boardLines := "\nBoard:".data :: sortedKeys.map (groupLine b)
  List.intercalate "\n".data (headerLines ++ boardLines)

theorem char_toNat_inj {c d : Char} (h : c.toNat = d.toNat) : c = d := by
  have h2 := congrArg Char.ofNat h
  rwa [Char.ofNat_toNat, Char.ofNat_toNat] at h2

theorem lexLe_total : ∀ a b, lexLe a b = true ∨ lexLe b a = true := by
  intro a
  induction a with
  | nil => intro b; left; rfl
  | cons x as ih =>
      intro b
      cases b with
      | nil => right; rfl
      | cons y bs =>
          by_cases h1 : x.toNat < y.toNat
          · left
            simp [lexLe, h1]
          · by_cases h2 : y.toNat < x.toNat
            · right
              simp [lexLe, h2]
            · rcases ih bs with h | h
              · left
                simp [lexLe, h1, h2, h]
              · right
                simp [lexLe, h1, h2, h]

theorem lexLe_trans : ∀ a b c, lexLe a b = true → lexLe b c = true → lexLe a c = true := by
  intro a
  induction a with
  | nil => intro b c _ _; rfl
  | cons x as ih =>
      intro b c hab hbc
      cases b with
      | nil => simp [lexLe] at hab
      | cons y bs =>
          cases c with
          | nil => simp [lexLe] at hbc
          | cons z cs =>
              simp only [lexLe] at hab hbc ⊢
              by_cases h1 : x.toNat < y.toNat
              · by_cases h2 : y.toNat < z.toNat
                · rw [if_pos (by omega)]
                · by_cases h3 : z.toNat < y.toNat
                  · simp [h2, h3] at hbc
                  · rw [if_pos (by omega)]
              · by_cases h4 : y.toNat < x.toNat
                · simp [h1, h4] at hab
                · rw [if_neg h1, if_neg h4] at hab
                  by_cases h2 : y.toNat < z.toNat
                  · rw [if_pos (by omega)]
                  · by_cases h3 : z.toNat < y.toNat
                    · simp [h2, h3] at hbc
                    · rw [if_neg h2, if_neg h3] at hbc
                      rw [if_neg (by omega), if_neg (by omega)]
                      exact ih bs cs hab hbc

theorem lexLe_antisymm : ∀ a b, lexLe a b = true → lexLe b a = true → a = b := by
  intro a
  induction a with
  | nil =>
      intro b _ hba
      cases b with
      | nil => rfl
      | cons y bs => simp [lexLe] at hba
  | cons x as ih =>
      intro b hab hba
      cases b with
      | nil => simp [lexLe] at hab
      | cons y bs =>
          by_cases h1 : x.toNat < y.toNat
          · simp [lexLe, h1, (by omega : ¬ y.toNat < x.toNat)] at hba
            omega
          · by_cases h2 : y.toNat < x.toNat
            · simp [lexLe, h1, h2] at hab
            · have hxy : x = y := char_toNat_inj (by omega)
              subst hxy
              simp only [lexLe, if_neg h1, if_neg h2] at hab hba
              rw [ih bs hab hba]

theorem find?_key_perm {β : Type} {g1 g2 : List (List Char × β)}
    (hperm : g1.Perm g2) (hnd : (g1.map Prod.fst).Nodup) (k : List Char) :
    g1.find? (fun e => e.1 == k) = g2.find? (fun e => e.1 == k) := by
  cases hfa : g1.find? (fun e => e.1 == k) with
  | none =>
      have hall := List.find?_eq_none.mp hfa
      symm
      apply List.find?_eq_none.mpr
      intro x hx
      exact hall x (hperm.mem_iff.mpr hx)
  | some a =>
      have ha1 : a ∈ g1 := List.mem_of_find?_eq_some hfa
      have hpa := @List.find?_some _ _ _ _ hfa
      cases hfb : g2.find? (fun e => e.1 == k) with
      | none =>
          have hall := List.find?_eq_none.mp hfb
          exact absurd hpa (by simpa using hall a (hperm.mem_iff.mp ha1))
      | some b =>
          have hb2 : b ∈ g2 := List.mem_of_find?_eq_some hfb
          have hpb := @List.find?_some _ _ _ _ hfb
          have hb1 : b ∈ g1 := hperm.mem_iff.mpr hb2
          have hkey : a.1 = b.1 := by
            have e1 : a.1 = k := by simpa using hpa
            have e2 : b.1 = k := by simpa using hpb
            rw [e1, e2]
          rw [List.inj_on_of_nodup_map hnd ha1 hb1 hkey]

/-- C8: the Context Builder is deterministic in the board's group map.
Two boards whose `groups` dictionaries hold the same key/value pairs
(possibly in different insertion orders, keys distinct) produce
byte-identical prompts, because the builder iterates the group names in
sorted order; and, being a pure function, identical arguments trivially
give identical output. -/
theorem C8_context_builder_deterministic (self : CtxPlayer) (cells : List CtxCell)
    (g1 g2 : List (List Char × List CtxProperty)) (players : List CtxPlayer)
    (hperm : g1.Perm g2) (hnd : (g1.map Prod.fst).Nodup) :
    build_full_context self ⟨cells, g1⟩ players
      = build_full_context self ⟨cells, g2⟩ players := by
  have hkeys : (g1.map Prod.fst).mergeSort lexLe = (g2.map Prod.fst).mergeSort lexLe := by
    have hperm2 : ((g1.map Prod.fst).mergeSort lexLe).Perm
        ((g2.map Prod.fst).mergeSort lexLe) :=
      ((List.mergeSort_perm _ lexLe).trans (hperm.map Prod.fst)).trans
        (List.mergeSort_perm _ lexLe).symm
    have htotal : ∀ a b : List Char, (lexLe a b || lexLe b a) = true := fun a b => by
      rcases lexLe_total a b with h | h <;> simp [h]
    have hs1 : List.Sorted (fun a b => lexLe a b = true)
        ((g1.map Prod.fst).mergeSort lexLe) :=
      List.sorted_mergeSort lexLe_trans htotal _
    have hs2 : List.Sorted (fun a b => lexLe a b = true)
        ((g2.map Prod.fst).mergeSort lexLe) :=
      List.sorted_mergeSort lexLe_trans htotal _
    exact @List.eq_of_perm_of_sorted _ _ ⟨fun a b h1 h2 => lexLe_antisymm a b h1 h2⟩
      _ _ hperm2 hs1 hs2
  have hgl : ∀ k, groupLine ⟨cells, g1⟩ k = groupLine ⟨cells, g2⟩ k := by
    intro k
    unfold groupLine
    dsimp only
    rw [find?_key_perm hperm hnd k]
  have hpl : playerLine ⟨cells, g1⟩ = playerLine ⟨cells, g2⟩ := funext fun p => rfl
  unfold build_full_context
  dsimp only
  rw [hkeys, hpl]
  have hmap : ((g2.map Prod.fst).mergeSort lexLe).map (groupLine ⟨cells, g1⟩)
      = ((g2.map Prod.fst).mergeSort lexLe).map (groupLine ⟨cells, g2⟩) :=
    List.map_congr_left fun k _ => hgl k
  rw [hmap]

/-- Witness for `C8_context_builder_deterministic`: two insertion orders
of the same two-group dictionary. -/
theorem C8_context_builder_deterministic_witness :
    build_full_context ⟨"P".data, 100, [], 0, false, true⟩
      ⟨[⟨"GO".data⟩], [("B".data, []), ("A".data, [])]⟩
      [⟨"P".data, 100, [], 0, false, true⟩]
    = build_full_context ⟨"P".data, 100, [], 0, false, true⟩
      ⟨[⟨"GO".data⟩], [("A".data, []), ("B".data, [])]⟩
      [⟨"P".data, 100, [], 0, false, true⟩] :=
  C8_context_builder_deterministic ⟨"P".data, 100, [], 0, false, true⟩ [⟨"GO".data⟩]
    [("B".data, []), ("A".data, [])] [("A".data, []), ("B".data, [])]
    [⟨"P".data, 100, [], 0, false, true⟩] (by decide) (by decide)
